import Mathlib

/-!
Shallow embedding of the ranking core of the SHL assessment recommendation
system (`src/core/recommender.py`): category inference fallback, round-robin
interleaving, candidate bucketing, and the final dedup-and-truncate step of
`RAGRecommender.get_recommendations`, together with theorems settling the
spec claims about it.
-/

namespace SHLRec

/-- A catalog item's metadata as it arrives from the broad ChromaDB search.
`test_type` is stored as one comma-joined string (cf. `embedder.py`, which
stores exactly these seven fields). -/
structure Meta where
  url : String
  name : String
  description : String
  duration : Int
  adaptive_support : String
  remote_support : String
  test_type : String
deriving DecidableEq, Repr

/-- A record as returned to the caller: same fields, but `test_type` has been
converted back into a list of trimmed strings (recommender.py line 154). -/
structure RecOut where
  url : String
  name : String
  description : String
  duration : Int
  adaptive_support : String
  remote_support : String
  test_type : List String
deriving DecidableEq, Repr

/-- The value held by the `test_type` key of a metadata dict: a Python value
that is either still the stored comma-joined string or, after the in-place
assignment on line 154, a list of strings. -/
inductive TTVal where
  | str (s : String)
  | lst (l : List String)
deriving DecidableEq, Repr

/-- The state of one retrieved metadata dict (it may be mutated in place by
`get_recommendations`, which rewrites its `test_type` field). -/
structure MetaPost where
  url : String
  name : String
  description : String
  duration : Int
  adaptive_support : String
  remote_support : String
  test_type : TTVal
deriving DecidableEq, Repr

/-- An element of the list returned by `get_recommendations`: either a proper
formatted record, or the `{"error": ...}` dict returned when the recommender
is not initialized (recommender.py line 108). -/
inductive ORec where
  | item (r : RecOut)
  | errRec (msg : String)
deriving DecidableEq, Repr

/-- The fixed 8-code category map `TEST_TYPE_MAP` from recommender.py. -/
def TEST_TYPE_MAP : List (String × String) :=
  [("A", "Ability & Aptitude"),
   ("B", "Biodata & Situational Judgement"),
   ("C", "Competencies"),
   ("D", "Development & 360"),
   ("E", "Assessment Exercises"),
   ("K", "Knowledge & Skills"),
   ("P", "Personality & Behavior"),
   ("S", "Simulations")]

/-- Dictionary lookup `TEST_TYPE_MAP.get(key)`, returning `none` for a key
outside the map. -/
def ttLookup (key : String) : Option String :=
  (TEST_TYPE_MAP.find? (fun kv => kv.1 == key)).map (fun kv => kv.2)

/-- The behaviors of the external Gemini classifier call as observed by
`_analyze_query_with_llm`: the call (or JSON parsing) raises, the parsed JSON
is not a list, or it is a list of strings. -/
inductive LLMReply where
  | raise
  | notAList
  | list (keys : List String)
deriving DecidableEq, Repr

/-- The method `RAGRecommender._analyze_query_with_llm` (recommender.py lines 53-92),
with the external call abstracted by `LLMReply`: if the LLM is not configured
return `['K','P','A']`; if the call raises return `['K','P']`; if the parsed
reply is not a list return `['K','P']`; otherwise return the parsed list
as-is (even when it is empty or contains unknown codes). -/
def analyzeQueryWithLLM (llmConfigured : Bool) (reply : LLMReply) : List String :=
  if !llmConfigured then ["K", "P", "A"]
  else
    match reply with
    | .raise => ["K", "P"]
    | .notAList => ["K", "P"]
    | .list keys => keys

/-- recommender.py line 113:
`[TEST_TYPE_MAP.get(key) for key in required_type_keys if TEST_TYPE_MAP.get(key)]`
(every value in the map is a non-empty, hence truthy, string). -/
def requiredTypeNames (keys : List String) : List String :=
  keys.filterMap ttLookup

/-- Python substring test `needle in hay` on lists of characters. -/
def listIn (needle : List Char) : List Char → Bool
  | [] => needle.isEmpty
  | c :: t => needle.isPrefixOf (c :: t) || listIn needle t

/-- Python substring test `needle in hay` on strings (recommender.py line 140
tests `type_name in meta['test_type']` where `test_type` is a string). -/
def strIn (needle hay : String) : Bool :=
  listIn needle.data hay.data

/-- First-occurrence deduplication with an accumulator of already-seen keys:
the key order of the Python dict `{name: [] for name in required_type_names}`
(re-assigning an existing key keeps its original position). -/
def firstDedupAux (seen : List String) : List String → List String
  | [] => []
  | x :: xs =>
      if x ∈ seen then firstDedupAux seen xs
      else x :: firstDedupAux (x :: seen) xs

/-- Key order of the bucket dict `ranked_lists` (recommender.py line 134). -/
def firstDedup (names : List String) : List String :=
  firstDedupAux [] names

/-- A retrieved metadata dict together with its position in the broad-search
result list (the position stands for the dict's object identity). -/
abbrev EMeta := Nat × Meta

/-- Enumerate the broad-search metadata list with positions starting at `n`. -/
def enumFromM (n : Nat) : List Meta → List EMeta
  | [] => []
  | m :: rest => (n, m) :: enumFromM (n + 1) rest

/-- The bucket a candidate is appended to, if any: the first name of the
inferred-category list whose name the candidate's `test_type` string contains
(recommender.py lines 138-142, `break` after the first match). -/
def metaMatch (names : List String) (m : Meta) : Option String :=
  names.find? (fun n => strIn n m.test_type)

/-- The contents of the bucket `ranked_lists[k]` after the bucketing loop:
the candidates, in arrival order, whose first matching category is `k`. -/
def rankedBucket (names : List String) (emetas : List EMeta) (k : String) :
    List EMeta :=
  emetas.filter (fun p => metaMatch names p.2 == some k)

/-- The expression `ranked_lists.values()`: the buckets in dict key order. -/
def rankedValues (names : List String) (emetas : List EMeta) :
    List (List EMeta) :=
  (firstDedup names).map (rankedBucket names emetas)

/-- Python's `max(len(l) for l in lists)` over a non-empty collection (all lengths are
non-negative, so folding from 0 agrees with Python's `max`). -/
def maxLen (ls : List (List α)) : Nat :=
  (ls.map List.length).foldr max 0

/-- The body of `_interleave_lists` (recommender.py lines 98-104): the nested
`for i in range(max_len): for l in lists: if i < len(l): append(l[i])`. -/
def interleaveCore (ls : List (List α)) : List α :=
  (List.range (maxLen ls)).foldl
    (fun acc i =>
      ls.foldl
        (fun acc2 l =>
          match l.get? i with
          | some x => acc2 ++ [x]
          | none => acc2)
        acc)
    []

/-- The method `RAGRecommender._interleave_lists`: on an empty collection of lists,
`max()` raises `ValueError` (modelled as `none`); otherwise the round-robin
interleaving is returned. -/
def interleaveLists (ls : List (List α)) : Option (List α) :=
  match ls with
  | [] => none
  | _ :: _ => some (interleaveCore ls)

/-- Python's `s.split(',')` on character lists: split at every comma, keeping
empty pieces (so the empty string yields one empty piece). `cur` accumulates
the current piece in reverse. -/
def splitCommaAux (cur : List Char) : List Char → List (List Char)
  | [] => [cur.reverse]
  | c :: t =>
      if c = ',' then cur.reverse :: splitCommaAux [] t
      else splitCommaAux (c :: cur) t

/-- Python's `t.strip()`: drop leading and trailing whitespace. -/
def stripChars (l : List Char) : List Char :=
  ((l.dropWhile Char.isWhitespace).reverse.dropWhile Char.isWhitespace).reverse

/-- The comprehension `[t.strip() for t in s.split(',')]` (recommender.py line 154). -/
def splitStrip (s : String) : List String :=
  (splitCommaAux [] s.data).map (fun cs => String.mk (stripChars cs))

/-- The record appended to `final_recommendations` for an emitted metadata
dict: the same dict after its `test_type` string was replaced in place by the
split-and-trimmed list. -/
def formatMeta (m : Meta) : RecOut :=
  { url := m.url, name := m.name, description := m.description,
    duration := m.duration, adaptive_support := m.adaptive_support,
    remote_support := m.remote_support, test_type := splitStrip m.test_type }

/-- A metadata dict as it arrived from the search (`test_type` still the
stored string). -/
def initPost (m : Meta) : MetaPost :=
  { url := m.url, name := m.name, description := m.description,
    duration := m.duration, adaptive_support := m.adaptive_support,
    remote_support := m.remote_support, test_type := .str m.test_type }

/-- A metadata dict after line 154 overwrote its `test_type` field. -/
def mutatedPost (m : Meta) : MetaPost :=
  { url := m.url, name := m.name, description := m.description,
    duration := m.duration, adaptive_support := m.adaptive_support,
    remote_support := m.remote_support, test_type := .lst (splitStrip m.test_type) }

/-- The dedup-and-truncate loop of `get_recommendations` (lines 148-161),
with the heap of retrieved dicts passed explicitly so that the in-place
mutation of line 154 is visible: for each interleaved candidate, if its url
was not seen yet, overwrite its `test_type` cell and emit it; after each
iteration stop as soon as `limit` records have been emitted. Returns the
emitted records and the final state of every retrieved dict. -/
def finalizeAux (limit : Nat) (seen : List String) (out : List RecOut)
    (heap : List MetaPost) : List EMeta → List RecOut × List MetaPost
  | [] => (out.reverse, heap)
  | (i, m) :: rest =>
      if m.url ∈ seen then
        if limit ≤ out.length then (out.reverse, heap)
        else finalizeAux limit seen out heap rest
      else
        let out2 := formatMeta m :: out
        let heap2 := heap.set i (mutatedPost m)
        if limit ≤ out2.length then (out2.reverse, heap2)
        else finalizeAux limit (m.url :: seen) out2 heap2 rest

/-- The dedup-and-truncate step applied to the interleaved list, starting
from no seen urls, no emitted records, and the unmutated retrieved dicts. -/
def finalize (limit : Nat) (heap : List MetaPost) (l : List EMeta) :
    List RecOut × List MetaPost :=
  finalizeAux limit [] [] heap l

/-- Steps 4-6 of `get_recommendations` (lines 134-163) on the metadata list
of the broad search: bucket the candidates, interleave the buckets (raising,
i.e. `none`, when the bucket dict is empty), then deduplicate, truncate and
format. Returns the output list and the post-call state of every retrieved
dict. -/
def pipelineCore (names : List String) (metas : List Meta) (limit : Nat) :
    Option (List RecOut × List MetaPost) :=
  let buckets := rankedValues names (enumFromM 0 metas)
  match interleaveLists buckets with
  | none => none
  | some finalList => some (finalize limit (metas.map initPost) finalList)

/-- The outcome of the broad ChromaDB search (lines 121-131): the call raised,
or it returned a `metadatas` field holding one metadata list per query
embedding. -/
inductive SearchResult where
  | err
  | ok (metadatas : List (List Meta))
deriving DecidableEq, Repr

/-- The method `RAGRecommender.get_recommendations` (lines 106-163) with the external
collaborators abstracted: `initOk` is whether the ChromaDB client and the
embedding model loaded, `llmConfigured`/`reply` drive the classifier call and
`search` the broad search. `none` models an uncaught exception escaping the
call. -/
def get_recommendations (initOk llmConfigured : Bool) (reply : LLMReply)
    (search : SearchResult) (limit : Nat) : Option (List ORec) :=
  if !initOk then some [ORec.errRec ("Recommender not initialized")]
  else
    let keys := analyzeQueryWithLLM llmConfigured reply
    let names := requiredTypeNames keys
    match search with
    | .err => some []
    | .ok [] => some []
    | .ok (metas :: _) =>
        match pipelineCore names metas limit with
        | none => none
        | some (out, _) => some (out.map ORec.item)

/-- The spec's description of one interleaving round: "take index `i` from
every non-exhausted bucket (in bucket-priority order)". -/
def interleaveRound (ls : List (List α)) (i : Nat) : List α :=
  ls.filterMap (fun l => l.get? i)

/-- The spec's description of the whole interleave: round 0, then round 1,
and so on, `n` rounds in total. -/
def roundsJoin (n : Nat) (ls : List (List α)) : List α :=
  ((List.range n).map (interleaveRound ls)).flatten

theorem foldl_append_singleton (ls : List (List α)) (i : Nat) :
    ∀ acc : List α,
      ls.foldl
        (fun acc2 l =>
          match l.get? i with
          | some x => acc2 ++ [x]
          | none => acc2)
        acc = acc ++ interleaveRound ls i := by
  induction ls with
  | nil => intro acc; simp [interleaveRound]
  | cons l ls ih =>
      intro acc
      simp only [List.foldl_cons, interleaveRound, List.filterMap_cons]
      cases h : l.get? i with
      | none => simpa [h, interleaveRound] using ih acc
      | some x => simpa [h, interleaveRound] using ih (acc ++ [x])

theorem foldl_append_join (g : Nat → List α) (l : List Nat) :
    ∀ acc : List α,
      l.foldl (fun acc i => acc ++ g i) acc = acc ++ (l.map g).flatten := by
  induction l with
  | nil => intro acc; simp
  | cons x l ih => intro acc; simp [ih (acc ++ g x)]

theorem interleaveCore_eq_roundsJoin (ls : List (List α)) :
    interleaveCore ls = roundsJoin (maxLen ls) ls := by
  unfold interleaveCore roundsJoin
  have h1 :
      (fun (acc : List α) (i : Nat) =>
        ls.foldl
          (fun acc2 l =>
            match l.get? i with
            | some x => acc2 ++ [x]
            | none => acc2)
          acc) = fun acc i => acc ++ interleaveRound ls i := by
    funext acc i
    exact foldl_append_singleton ls i acc
  rw [h1]
  simpa using foldl_append_join (interleaveRound ls) (List.range (maxLen ls)) []

theorem get?_succ_tail (l : List α) (i : Nat) :
    l.get? (i + 1) = l.tail.get? i := by
  cases l <;> rfl

theorem interleaveRound_succ (ls : List (List α)) (i : Nat) :
    interleaveRound ls (i + 1) = interleaveRound (ls.map List.tail) i := by
  unfold interleaveRound
  rw [List.filterMap_map]
  exact List.filterMap_congr (by intro l _; exact get?_succ_tail l i)

theorem roundsJoin_succ (n : Nat) (ls : List (List α)) :
    roundsJoin (n + 1) ls =
      interleaveRound ls 0 ++ roundsJoin n (ls.map List.tail) := by
  unfold roundsJoin
  rw [List.range_succ_eq_map, List.map_cons, List.flatten_cons, List.map_map]
  congr 1
  congr 1
  apply List.map_congr_left
  intro i _
  exact interleaveRound_succ ls i

theorem maxLen_le_iff (ls : List (List α)) (n : Nat) :
    maxLen ls ≤ n ↔ ∀ l ∈ ls, l.length ≤ n := by
  induction ls with
  | nil => simp [maxLen]
  | cons l ls ih =>
      simp only [maxLen, List.map_cons, List.foldr_cons, max_le_iff,
        List.mem_cons]
      constructor
      · rintro ⟨h1, h2⟩ x hx
        rcases hx with rfl | hx
        · exact h1
        · exact (ih.mp h2) x hx
      · intro h
        exact ⟨h l (Or.inl rfl), ih.mpr (fun x hx => h x (Or.inr hx))⟩

theorem flatten_eq_nil_of_maxLen_zero (ls : List (List α))
    (h : maxLen ls = 0) : ls.flatten = [] := by
  rw [List.flatten_eq_nil_iff]
  intro l hl
  have := (maxLen_le_iff ls 0).mp (le_of_eq h) l hl
  exact List.length_eq_zero.mp (Nat.le_zero.mp this)

theorem heads_tails_perm (ls : List (List α)) :
    (interleaveRound ls 0 ++ (ls.map List.tail).flatten).Perm ls.flatten := by
  induction ls with
  | nil => simp [interleaveRound]
  | cons l ls ih =>
      cases l with
      | nil => simpa [interleaveRound, List.filterMap_cons] using ih
      | cons a t =>
          simp only [interleaveRound, List.filterMap_cons, List.get?,
            List.map_cons, List.flatten_cons, List.tail_cons, List.cons_append]
          refine List.Perm.cons a ?_
          have h1 :
              (List.filterMap (fun l => l.get? 0) ls ++
                  (t ++ (ls.map List.tail).flatten)).Perm
                (t ++ (List.filterMap (fun l => l.get? 0) ls ++
                  (ls.map List.tail).flatten)) := by
            rw [← List.append_assoc, ← List.append_assoc]
            exact List.Perm.append_right _ List.perm_append_comm
          have h2 :
              (t ++ (List.filterMap (fun l => l.get? 0) ls ++
                  (ls.map List.tail).flatten)).Perm (t ++ ls.flatten) :=
            List.Perm.append_left t (by simpa [interleaveRound] using ih)
          exact h1.trans h2

theorem roundsJoin_perm (n : Nat) :
    ∀ ls : List (List α), maxLen ls ≤ n → (roundsJoin n ls).Perm ls.flatten := by
  induction n with
  | zero =>
      intro ls h
      rw [flatten_eq_nil_of_maxLen_zero ls (Nat.le_zero.mp h)]
      simp [roundsJoin]
  | succ n ih =>
      intro ls h
      rw [roundsJoin_succ]
      have htails : maxLen (ls.map List.tail) ≤ n := by
        rw [maxLen_le_iff]
        intro t ht
        rcases List.mem_map.mp ht with ⟨l, hl, rfl⟩
        have hlen := (maxLen_le_iff ls (n + 1)).mp h l hl
        cases l with
        | nil => simp
        | cons a t' => simpa using Nat.le_of_succ_le_succ hlen
      exact (List.Perm.append_left _ (ih _ htails)).trans (heads_tails_perm ls)

/-- Spec-side description of deduplication: keep each candidate whose url was
not seen before, first occurrence wins, in input order (no truncation). -/
def dedupByUrl (seen : List String) : List EMeta → List EMeta
  | [] => []
  | p :: rest =>
      if p.2.url ∈ seen then dedupByUrl seen rest
      else p :: dedupByUrl (p.2.url :: seen) rest

theorem dedupByUrl_subset : ∀ (l : List EMeta) (seen : List String) (p : EMeta),
    p ∈ dedupByUrl seen l → p ∈ l := by
  intro l
  induction l with
  | nil => intro seen p h; simp [dedupByUrl] at h
  | cons q rest ih =>
      intro seen p h
      by_cases hq : q.2.url ∈ seen
      · simp only [dedupByUrl, if_pos hq] at h
        exact List.mem_cons_of_mem q (ih seen p h)
      · simp only [dedupByUrl, if_neg hq, List.mem_cons] at h
        rcases h with rfl | h
        · exact List.mem_cons_self p rest
        · exact List.mem_cons_of_mem q (ih _ p h)

theorem mem_map_url_dedupByUrl (u : String) :
    ∀ (l : List EMeta) (seen : List String),
      u ∈ (dedupByUrl seen l).map (fun p => p.2.url) ↔
        u ∈ l.map (fun p => p.2.url) ∧ u ∉ seen := by
  intro l
  induction l with
  | nil => intro seen; simp [dedupByUrl]
  | cons q rest ih =>
      intro seen
      by_cases hq : q.2.url ∈ seen
      · by_cases hu : u = q.2.url
        · subst hu
          simp only [dedupByUrl, if_pos hq, ih, List.map_cons, List.mem_cons]
          constructor
          · rintro ⟨-, h2⟩; exact absurd hq h2
          · rintro ⟨-, h2⟩; exact absurd hq h2
        · simp [dedupByUrl, if_pos hq, ih, hu]
      · by_cases hu : u = q.2.url
        · subst hu
          simp [dedupByUrl, if_neg hq, hq]
        · simp [dedupByUrl, if_neg hq, ih, hu]

theorem nodup_map_url_dedupByUrl :
    ∀ (l : List EMeta) (seen : List String),
      ((dedupByUrl seen l).map (fun p => p.2.url)).Nodup := by
  intro l
  induction l with
  | nil => intro seen; simp [dedupByUrl]
  | cons q rest ih =>
      intro seen
      by_cases hq : q.2.url ∈ seen
      · simpa [dedupByUrl, if_pos hq] using ih seen
      · simp only [dedupByUrl, if_neg hq, List.map_cons, List.nodup_cons]
        refine ⟨fun hmem => ?_, ih _⟩
        have := (mem_map_url_dedupByUrl q.2.url rest (q.2.url :: seen)).mp hmem
        exact this.2 (List.mem_cons_self _ _)

theorem length_dedupByUrl (l : List EMeta) :
    (dedupByUrl [] l).length = ((l.map (fun p => p.2.url)).dedup).length := by
  have hsets :
      ((dedupByUrl [] l).map (fun p => p.2.url)).toFinset =
        (l.map (fun p => p.2.url)).toFinset := by
    ext u
    simp only [List.mem_toFinset]
    rw [mem_map_url_dedupByUrl]
    simp
  calc (dedupByUrl [] l).length
      = ((dedupByUrl [] l).map (fun p => p.2.url)).length := by
        rw [List.length_map]
    _ = ((dedupByUrl [] l).map (fun p => p.2.url)).toFinset.card :=
        (List.toFinset_card_of_nodup (nodup_map_url_dedupByUrl l [])).symm
    _ = (l.map (fun p => p.2.url)).toFinset.card := by rw [hsets]
    _ = ((l.map (fun p => p.2.url)).dedup).length := List.card_toFinset _

theorem finalizeAux_fst :
    ∀ (l : List EMeta) (limit : Nat) (seen : List String) (out : List RecOut)
      (heap : List MetaPost), out.length < limit →
      (finalizeAux limit seen out heap l).1 =
        out.reverse ++
          ((dedupByUrl seen l).map (fun p => formatMeta p.2)).take
            (limit - out.length) := by
  intro l
  induction l with
  | nil => intro limit seen out heap h; simp [finalizeAux, dedupByUrl]
  | cons q rest ih =>
      intro limit seen out heap h
      obtain ⟨i, m⟩ := q
      by_cases hm : m.url ∈ seen
      · rw [show finalizeAux limit seen out heap ((i, m) :: rest) =
            (if m.url ∈ seen then
              if limit ≤ out.length then (out.reverse, heap)
              else finalizeAux limit seen out heap rest
            else
              let out2 := formatMeta m :: out
              let heap2 := heap.set i (mutatedPost m)
              if limit ≤ out2.length then (out2.reverse, heap2)
              else finalizeAux limit (m.url :: seen) out2 heap2 rest) from rfl]
        rw [if_pos hm, if_neg (Nat.not_le_of_lt h)]
        simp only [dedupByUrl, if_pos hm]
        exact ih limit seen out heap h
      · rw [show finalizeAux limit seen out heap ((i, m) :: rest) =
            (if m.url ∈ seen then
              if limit ≤ out.length then (out.reverse, heap)
              else finalizeAux limit seen out heap rest
            else
              let out2 := formatMeta m :: out
              let heap2 := heap.set i (mutatedPost m)
              if limit ≤ out2.length then (out2.reverse, heap2)
              else finalizeAux limit (m.url :: seen) out2 heap2 rest) from rfl]
        rw [if_neg hm]
        simp only [dedupByUrl, if_neg hm, List.map_cons, List.length_cons]
        by_cases hstop : limit ≤ out.length + 1
        · have hlim : limit - out.length = 1 := by omega
          rw [if_pos hstop, hlim, List.take_succ_cons, List.take_zero]
          simp
        · rw [if_neg hstop]
          rw [ih limit (m.url :: seen) (formatMeta m :: out)
            (heap.set i (mutatedPost m)) (by simpa using Nat.lt_of_not_le hstop)]
          have hlim : limit - out.length = (limit - (out.length + 1)) + 1 := by
            omega
          rw [hlim, List.take_succ_cons]
          simp [List.append_assoc]

theorem finalizeAux_mem_acc :
    ∀ (l : List EMeta) (limit : Nat) (seen : List String) (out : List RecOut)
      (heap : List MetaPost) (r : RecOut),
      r ∈ out → r ∈ (finalizeAux limit seen out heap l).1 := by
  intro l
  induction l with
  | nil => intro limit seen out heap r hr; simpa [finalizeAux] using hr
  | cons q rest ih =>
      intro limit seen out heap r hr
      obtain ⟨i, m⟩ := q
      show r ∈ (if m.url ∈ seen then
          if limit ≤ out.length then (out.reverse, heap)
          else finalizeAux limit seen out heap rest
        else
          let out2 := formatMeta m :: out
          let heap2 := heap.set i (mutatedPost m)
          if limit ≤ out2.length then (out2.reverse, heap2)
          else finalizeAux limit (m.url :: seen) out2 heap2 rest).1
      by_cases hm : m.url ∈ seen
      · rw [if_pos hm]
        by_cases hstop : limit ≤ out.length
        · rw [if_pos hstop]; simpa using hr
        · rw [if_neg hstop]; exact ih limit seen out heap r hr
      · rw [if_neg hm]
        by_cases hstop : limit ≤ (formatMeta m :: out).length
        · simp only [if_pos hstop]
          simpa using Or.inl hr
        · simp only [if_neg hstop]
          exact ih limit _ _ _ r (List.mem_cons_of_mem _ hr)

theorem finalizeAux_heap :
    ∀ (l : List EMeta) (limit : Nat) (seen : List String) (out : List RecOut)
      (heap : List MetaPost) (i : Nat),
      (finalizeAux limit seen out heap l).2.get? i = heap.get? i ∨
        ∃ m, (i, m) ∈ l ∧
          (finalizeAux limit seen out heap l).2.get? i =
            some (mutatedPost m) ∧
          formatMeta m ∈ (finalizeAux limit seen out heap l).1 := by
  intro l
  induction l with
  | nil => intro limit seen out heap i; left; rfl
  | cons q rest ih =>
      intro limit seen out heap i
      obtain ⟨j, m'⟩ := q
      have hunfold : finalizeAux limit seen out heap ((j, m') :: rest) =
          (if m'.url ∈ seen then
            if limit ≤ out.length then (out.reverse, heap)
            else finalizeAux limit seen out heap rest
          else
            let out2 := formatMeta m' :: out
            let heap2 := heap.set j (mutatedPost m')
            if limit ≤ out2.length then (out2.reverse, heap2)
            else finalizeAux limit (m'.url :: seen) out2 heap2 rest) := rfl
      by_cases hm : m'.url ∈ seen
      · rw [hunfold, if_pos hm]
        by_cases hstop : limit ≤ out.length
        · rw [if_pos hstop]; left; rfl
        · rw [if_neg hstop]
          rcases ih limit seen out heap i with h | ⟨m, hmem, h1, h2⟩
          · exact Or.inl h
          · exact Or.inr ⟨m, List.mem_cons_of_mem _ hmem, h1, h2⟩
      · rw [hunfold, if_neg hm]
        by_cases hstop : limit ≤ (formatMeta m' :: out).length
        · simp only [if_pos hstop]
          by_cases hij : i = j
          · subst hij
            cases hcell : heap.get? i with
            | none =>
                left
                rw [List.get?_set_eq, hcell]
                rfl
            | some c =>
                right
                refine ⟨m', List.mem_cons_self _ _, ?_, ?_⟩
                · rw [List.get?_set_eq, hcell]; rfl
                · simp
          · left
            exact List.get?_set_ne _ _ (fun h => hij h.symm)
        · simp only [if_neg hstop]
          rcases ih limit (m'.url :: seen) (formatMeta m' :: out)
              (heap.set j (mutatedPost m')) i with h | ⟨m, hmem, h1, h2⟩
          · by_cases hij : i = j
            · subst hij
              cases hcell : heap.get? i with
              | none =>
                  left
                  rw [h, List.get?_set_eq, hcell]
                  rfl
              | some c =>
                  right
                  refine ⟨m', List.mem_cons_self _ _, ?_, ?_⟩
                  · rw [h, List.get?_set_eq, hcell]; rfl
                  · exact finalizeAux_mem_acc rest limit _ _ _ _
                      (List.mem_cons_self _ _)
            · left
              rw [h]
              exact List.get?_set_ne _ _ (fun h => hij h.symm)
          · exact Or.inr ⟨m, List.mem_cons_of_mem _ hmem, h1, h2⟩

theorem mem_finalizeAux_fst :
    ∀ (l : List EMeta) (limit : Nat) (seen : List String) (out : List RecOut)
      (heap : List MetaPost) (r : RecOut),
      r ∈ (finalizeAux limit seen out heap l).1 →
      r ∈ out ∨ ∃ p, p ∈ l ∧ r = formatMeta p.2 := by
  intro l
  induction l with
  | nil => intro limit seen out heap r hr; left; simpa [finalizeAux] using hr
  | cons q rest ih =>
      intro limit seen out heap r hr
      obtain ⟨i, m⟩ := q
      rw [show finalizeAux limit seen out heap ((i, m) :: rest) =
          (if m.url ∈ seen then
            if limit ≤ out.length then (out.reverse, heap)
            else finalizeAux limit seen out heap rest
          else
            let out2 := formatMeta m :: out
            let heap2 := heap.set i (mutatedPost m)
            if limit ≤ out2.length then (out2.reverse, heap2)
            else finalizeAux limit (m.url :: seen) out2 heap2 rest) from rfl]
        at hr
      by_cases hm : m.url ∈ seen
      · rw [if_pos hm] at hr
        by_cases hstop : limit ≤ out.length
        · rw [if_pos hstop] at hr; left; simpa using hr
        · rw [if_neg hstop] at hr
          rcases ih limit seen out heap r hr with h | ⟨p, hp, hfmt⟩
          · exact Or.inl h
          · exact Or.inr ⟨p, List.mem_cons_of_mem _ hp, hfmt⟩
      · rw [if_neg hm] at hr
        by_cases hstop : limit ≤ (formatMeta m :: out).length
        · simp only [if_pos hstop] at hr
          simp only [List.reverse_cons, List.mem_append, List.mem_reverse,
            List.mem_singleton] at hr
          rcases hr with h | h
          · exact Or.inl h
          · exact Or.inr ⟨(i, m), List.mem_cons_self _ _, h⟩
        · simp only [if_neg hstop] at hr
          rcases ih limit _ _ _ r hr with h | ⟨p, hp, hfmt⟩
          · rcases List.mem_cons.mp h with h | h
            · exact Or.inr ⟨(i, m), List.mem_cons_self _ _, h⟩
            · exact Or.inl h
          · exact Or.inr ⟨p, List.mem_cons_of_mem _ hp, hfmt⟩

theorem mem_enumFromM :
    ∀ (l : List Meta) (n i : Nat) (m : Meta),
      (i, m) ∈ enumFromM n l → n ≤ i ∧ l.get? (i - n) = some m := by
  intro l
  induction l with
  | nil => intro n i m h; simp [enumFromM] at h
  | cons m0 rest ih =>
      intro n i m h
      simp only [enumFromM, List.mem_cons, Prod.mk.injEq] at h
      rcases h with ⟨rfl, rfl⟩ | h
      · exact ⟨le_refl _, by simp⟩
      · obtain ⟨h1, h2⟩ := ih (n + 1) i m h
        refine ⟨Nat.le_of_succ_le h1, ?_⟩
        have hin : i - n = (i - (n + 1)) + 1 := by omega
        rw [hin, get?_succ_tail]
        simpa using h2

theorem mem_enumFromM_zero (l : List Meta) (i : Nat) (m : Meta)
    (h : (i, m) ∈ enumFromM 0 l) : l.get? i = some m := by
  have := (mem_enumFromM l 0 i m h).2
  simpa using this

theorem enumFromM_zero_inj (l : List Meta) (i : Nat) (m m' : Meta)
    (h : (i, m) ∈ enumFromM 0 l) (h' : (i, m') ∈ enumFromM 0 l) : m = m' := by
  have h1 := mem_enumFromM_zero l i m h
  have h2 := mem_enumFromM_zero l i m' h'
  rw [h1] at h2
  exact Option.some_inj.mp h2

theorem find?_eq_some_split {α : Type} (f : α → Bool) :
    ∀ (l : List α) (k : α), l.find? f = some k →
      ∃ pre post, l = pre ++ k :: post ∧ f k = true ∧
        ∀ n ∈ pre, f n = false := by
  intro l
  induction l with
  | nil => intro k h; simp at h
  | cons a rest ih =>
      intro k h
      cases ha : f a with
      | true =>
          rw [List.find?_cons_of_pos _ ha, Option.some_inj] at h
          subst h
          exact ⟨[], rest, rfl, ha, by simp⟩
      | false =>
          rw [List.find?_cons_of_neg _ (by simp [ha])] at h
          obtain ⟨pre, post, hsplit, hk, hpre⟩ := ih k h
          refine ⟨a :: pre, post, by rw [hsplit]; rfl, hk, ?_⟩
          intro n hn
          rcases List.mem_cons.mp hn with rfl | hn
          · exact ha
          · exact hpre n hn

theorem mem_rankedBucket_iff (names : List String) (emetas : List EMeta)
    (k : String) (p : EMeta) :
    p ∈ rankedBucket names emetas k ↔
      p ∈ emetas ∧ metaMatch names p.2 = some k := by
  simp [rankedBucket, List.mem_filter]

theorem interleaveLists_perm {α : Type} (ls : List (List α)) (out : List α)
    (h : interleaveLists ls = some out) : out.Perm ls.flatten := by
  cases ls with
  | nil => simp [interleaveLists] at h
  | cons b bs =>
      simp only [interleaveLists, Option.some_inj] at h
      subst h
      rw [interleaveCore_eq_roundsJoin]
      exact roundsJoin_perm _ _ (le_refl _)

theorem mem_of_interleave_rankedValues (names : List String)
    (emetas : List EMeta) (fl : List EMeta)
    (h : interleaveLists (rankedValues names emetas) = some fl)
    (p : EMeta) (hp : p ∈ fl) :
    p ∈ emetas ∧ ∃ k, metaMatch names p.2 = some k := by
  have hperm := interleaveLists_perm _ _ h
  have hflat : p ∈ (rankedValues names emetas).flatten := hperm.mem_iff.mp hp
  obtain ⟨b, hb, hpb⟩ := List.mem_flatten.mp hflat
  obtain ⟨k, hk, rfl⟩ := List.mem_map.mp hb
  have := (mem_rankedBucket_iff names emetas k p).mp hpb
  exact ⟨this.1, k, this.2⟩

theorem pipelineCore_eq_some (names : List String) (metas : List Meta)
    (limit : Nat) (out : List RecOut) (heap : List MetaPost)
    (h : pipelineCore names metas limit = some (out, heap)) :
    ∃ fl, interleaveLists (rankedValues names (enumFromM 0 metas)) = some fl ∧
      (out, heap) = finalize limit (metas.map initPost) fl := by
  rw [show pipelineCore names metas limit =
      (match interleaveLists (rankedValues names (enumFromM 0 metas)) with
       | none => none
       | some fl => some (finalize limit (metas.map initPost) fl)) from rfl]
    at h
  cases hil : interleaveLists (rankedValues names (enumFromM 0 metas)) with
  | none => rw [hil] at h; simp at h
  | some fl =>
      rw [hil] at h
      simp only [Option.some_inj] at h
      exact ⟨fl, rfl, h.symm⟩

theorem pipelineCore_nil_names (metas : List Meta) (limit : Nat) :
    pipelineCore [] metas limit = none := rfl

/-- A concrete catalog item with a one-letter type string, used to evaluate
the pipeline on small inputs. -/
def mShort : Meta :=
  { url := "u1", name := "n1", description := "d1", duration := 10,
    adaptive_support := "Yes", remote_support := "No", test_type := "T" }

/-- A concrete catalog item of the Knowledge and Skills category. -/
def mK : Meta :=
  { url := "u1", name := "n1", description := "d1", duration := 10,
    adaptive_support := "Yes", remote_support := "No",
    test_type := "Knowledge & Skills" }

/-- A concrete catalog item whose own `test_type` list names Knowledge and
Skills first and Personality and Behavior second. -/
def mKP : Meta :=
  { url := "u1", name := "n1", description := "d1", duration := 10,
    adaptive_support := "Yes", remote_support := "No",
    test_type := "Knowledge & Skills, Personality & Behavior" }

/-- An inferred-category list naming Personality and Behavior first. -/
def namesPK : List String := ["Personality & Behavior", "Knowledge & Skills"]

/-- Claim C2, counterexample: on an empty sequence of buckets the interleave
operation does not emit the (empty) round-robin output; `max()` of an empty
sequence raises `ValueError`, so no list at all is returned. -/
theorem interleave_empty_cex :
    interleaveLists ([] : List (List Nat)) = none ∧
    ∀ out : List Nat, interleaveLists ([] : List (List Nat)) ≠ some out :=
  ⟨rfl, fun _ h => Option.noConfusion h⟩

/-- Claim C2 (amended to non-empty bucket sequences): for every non-empty
sequence of buckets in priority order, `_interleave_lists` emits index 0 of
every non-exhausted bucket in priority order, then index 1, and so on
(`roundsJoin`), and in particular for buckets of sizes 3, 1, 2 in priority
order X, Y, Z the output is exactly X1, Y1, Z1, X2, Z2, X3. -/
theorem interleave_round_robin :
    (∀ (α : Type) (ls : List (List α)), ls ≠ [] →
        interleaveLists ls = some (roundsJoin (maxLen ls) ls)) ∧
    interleaveLists [[0, 1, 2], [10], [20, 21]] =
      some [0, 10, 20, 1, 21, 2] := by
  constructor
  · intro α ls h
    cases ls with
    | nil => exact absurd rfl h
    | cons b bs =>
        simp only [interleaveLists]
        rw [interleaveCore_eq_roundsJoin]
  · decide

/-- Witness for C2's amended claim at a concrete bucket sequence. -/
theorem interleave_round_robin_witness :
    ([[5], [7]] : List (List Nat)) ≠ [] ∧
    interleaveLists [[5], [7]] =
      some (roundsJoin (maxLen [[5], [7]]) [[5], [7]]) :=
  ⟨by decide, interleave_round_robin.1 Nat [[5], [7]] (by decide)⟩

/-- Claim C4: the code falls back to the fixed default only when the
classifier call raises or its reply is not a list; a reply that is a valid
but empty JSON list is returned as-is, so category inference does return an
empty sequence there (and `get_recommendations` then raises in `max()`),
contradicting the spec's demand that an empty/invalid reply also falls back
to a non-empty default. -/
theorem classifier_empty_list_not_defaulted :
    analyzeQueryWithLLM true (LLMReply.list []) = [] ∧
    analyzeQueryWithLLM true LLMReply.raise = ["K", "P"] ∧
    analyzeQueryWithLLM true LLMReply.notAList = ["K", "P"] ∧
    analyzeQueryWithLLM false LLMReply.raise = ["K", "P", "A"] ∧
    get_recommendations true true (LLMReply.list []) (.ok [[mShort]]) 10 =
      none :=
  ⟨rfl, rfl, rfl, rfl, rfl⟩

/-- Claim C6: if the broad search call raises, or returns a falsy `metadatas`
field, `get_recommendations` returns an empty list instead of propagating the
exception, for every classifier behavior and limit. -/
theorem search_error_yields_empty_list (llmC : Bool) (reply : LLMReply)
    (limit : Nat) :
    get_recommendations true llmC reply .err limit = some [] ∧
    get_recommendations true llmC reply (.ok []) limit = some [] :=
  ⟨rfl, rfl⟩

/-- Claim C9: when the mapped inferred-category-name list is empty and the
broad search succeeded (non-empty `metadatas`), `get_recommendations` raises
(the `max()` of an empty sequence inside `_interleave_lists`) instead of
returning a list. -/
theorem empty_inferred_names_raises (llmC : Bool) (reply : LLMReply)
    (limit : Nat) (metas : List Meta) (rest : List (List Meta))
    (h : requiredTypeNames (analyzeQueryWithLLM llmC reply) = []) :
    get_recommendations true llmC reply (.ok (metas :: rest)) limit = none := by
  have hp : pipelineCore (requiredTypeNames (analyzeQueryWithLLM llmC reply))
      metas limit = none := by rw [h]; rfl
  rw [show get_recommendations true llmC reply (.ok (metas :: rest)) limit =
      (match pipelineCore (requiredTypeNames (analyzeQueryWithLLM llmC reply))
          metas limit with
       | none => none
       | some (out, _) => some (out.map ORec.item)) from rfl]
  rw [hp]

/-- Witness for C9: the classifier replying with the empty JSON list maps to
an empty name list, and the call then raises. -/
theorem empty_inferred_names_raises_witness :
    requiredTypeNames (analyzeQueryWithLLM true (LLMReply.list [])) = [] ∧
    get_recommendations true true (LLMReply.list []) (.ok [[]]) 10 = none :=
  ⟨rfl, empty_inferred_names_raises true (LLMReply.list []) 10 [] [] rfl⟩

/-- Claim C10: for every non-empty collection of buckets, the interleaved
output is a permutation of the concatenation of the buckets, and its length
is the sum of the bucket lengths, so interleaving neither drops nor
duplicates elements. -/
theorem interleave_is_permutation (α : Type) (ls : List (List α))
    (h : ls ≠ []) :
    ∃ out, interleaveLists ls = some out ∧ out.Perm ls.flatten ∧
      out.length = (ls.map List.length).sum := by
  cases ls with
  | nil => exact absurd rfl h
  | cons b bs =>
      have hperm : (interleaveCore (b :: bs)).Perm (b :: bs).flatten := by
        rw [interleaveCore_eq_roundsJoin]
        exact roundsJoin_perm _ _ (le_refl _)
      refine ⟨interleaveCore (b :: bs), rfl, hperm, ?_⟩
      rw [hperm.length_eq]
      simp

/-- Witness for C10 at a concrete bucket collection. -/
theorem interleave_is_permutation_witness :
    ([[1, 2], [3]] : List (List Nat)) ≠ [] ∧
    ∃ out, interleaveLists ([[1, 2], [3]] : List (List Nat)) = some out ∧
      out.Perm ([[1, 2], [3]] : List (List Nat)).flatten ∧
      out.length = (([[1, 2], [3]] : List (List Nat)).map List.length).sum :=
  ⟨by decide, interleave_is_permutation Nat [[1, 2], [3]] (by decide)⟩

/-- Claim C1, counterexample: at limit 0 with one candidate, the break check
runs only after an item was already appended, so the step returns 1 item, not
min(0, 1) = 0. -/
theorem dedup_truncate_limit_zero_cex :
    ¬ ((finalize 0 [initPost mShort] [(0, mShort)]).1.length =
        min 0 ((([(0, mShort)] : List EMeta).map
          (fun p => p.2.url)).dedup.length)) := by
  decide

/-- Claim C1 (amended to limits of at least 1, as the counterexample at limit
0 forces): the dedup-and-truncate step returns exactly the first
min(limit, distinct urls) first-occurrence items in input order — its output
is the `limit`-prefix of the first-occurrence-per-url subsequence, its length
is exactly min(limit, number of distinct urls), and no url is emitted
twice. -/
theorem dedup_truncate_spec (l : List EMeta) (heap : List MetaPost)
    (limit : Nat) (h : 1 ≤ limit) :
    (finalize limit heap l).1 =
      ((dedupByUrl [] l).map (fun p => formatMeta p.2)).take limit ∧
    (finalize limit heap l).1.length =
      min limit ((l.map (fun p => p.2.url)).dedup.length) ∧
    (((finalize limit heap l).1).map (fun r => r.url)).Nodup := by
  have h0 : ([] : List RecOut).length < limit := by simpa using h
  have h1 := finalizeAux_fst l limit [] [] heap h0
  have heq : (finalize limit heap l).1 =
      ((dedupByUrl [] l).map (fun p => formatMeta p.2)).take limit := by
    rw [finalize, h1]
    simp
  refine ⟨heq, ?_, ?_⟩
  · rw [heq, List.length_take, List.length_map, length_dedupByUrl]
  · rw [heq]
    have hmap :
        (((dedupByUrl [] l).map (fun p => formatMeta p.2)).take limit).map
            (fun r => r.url) =
          ((dedupByUrl [] l).map (fun p => p.2.url)).take limit := by
      simp only [← List.map_take, List.map_map]
      rfl
    rw [hmap]
    exact (nodup_map_url_dedupByUrl l []).sublist (List.take_sublist _ _)

/-- Witness for C1's amended claim at limit 1 with one candidate. -/
theorem dedup_truncate_spec_witness :
    1 ≤ 1 ∧
    ((finalize 1 [initPost mShort] [(0, mShort)]).1 =
        ((dedupByUrl [] [(0, mShort)]).map (fun p => formatMeta p.2)).take 1 ∧
      (finalize 1 [initPost mShort] [(0, mShort)]).1.length =
        min 1 ((([(0, mShort)] : List EMeta).map
          (fun p => p.2.url)).dedup.length) ∧
      (((finalize 1 [initPost mShort] [(0, mShort)]).1).map
        (fun r => r.url)).Nodup) :=
  ⟨by decide, dedup_truncate_spec [(0, mShort)] [initPost mShort] 1 (by decide)⟩

/-- The bucket the spec claim C5 predicts, following its words: the first
category in the candidate's own `test_type` list (in the item's own order)
that matches any of the query's inferred categories. -/
def specClaimedBucket (names : List String) (m : Meta) : Option String :=
  (splitStrip m.test_type).find? (fun t => names.contains t)

/-- Claim C5, counterexample: for an item whose own type list is
`[Knowledge & Skills, Personality & Behavior]` and inferred categories
`[Personality & Behavior, Knowledge & Skills]`, the claim predicts the
Knowledge and Skills bucket (first in the item's own order), but the code
scans the inferred list and places the item in the Personality and Behavior
bucket. -/
theorem bucket_choice_cex :
    metaMatch namesPK mKP = some ("Personality & Behavior") ∧
    specClaimedBucket namesPK mKP = some ("Knowledge & Skills") ∧
    metaMatch namesPK mKP ≠ specClaimedBucket namesPK mKP ∧
    (0, mKP) ∈ rankedBucket namesPK [(0, mKP)] ("Personality & Behavior") ∧
    (0, mKP) ∉ rankedBucket namesPK [(0, mKP)] ("Knowledge & Skills") := by
  decide

/-- Claim C5 (amended): the chosen bucket is the first category in the
query's inferred-category list (in that list's order) whose name the
candidate's `test_type` string contains; the item's own `test_type` order
plays no role. -/
theorem bucket_choice_inferred_order (names : List String)
    (emetas : List EMeta) (p : EMeta) (k : String)
    (h : p ∈ rankedBucket names emetas k) :
    strIn k p.2.test_type = true ∧
    ∃ pre post, names = pre ++ k :: post ∧
      ∀ n ∈ pre, strIn n p.2.test_type = false := by
  have hm := ((mem_rankedBucket_iff names emetas k p).mp h).2
  obtain ⟨pre, post, hsplit, hk, hpre⟩ := find?_eq_some_split _ names k hm
  exact ⟨hk, pre, post, hsplit, hpre⟩

/-- Witness for C5's amended claim at a concrete bucketed candidate. -/
theorem bucket_choice_inferred_order_witness :
    (0, mShort) ∈ rankedBucket ["T"] [(0, mShort)] ("T") ∧
    (strIn ("T") (0, mShort).2.test_type = true ∧
      ∃ pre post, ["T"] = pre ++ ("T") :: post ∧
        ∀ n ∈ pre, strIn n (0, mShort).2.test_type = false) :=
  ⟨by decide,
    bucket_choice_inferred_order ["T"] [(0, mShort)] (0, mShort) ("T")
      (by decide)⟩

/-- Claim C7, counterexample: when the recommender failed to initialize,
`get_recommendations` returns a one-element list whose record is the bare
`{"error": ...}` dict, which does not carry the url/name/... fields — the
caller does receive a record without the claimed shape. -/
theorem output_record_shape_cex :
    get_recommendations false true (LLMReply.list ["K"]) (.ok [[mShort]]) 10 =
      some [ORec.errRec ("Recommender not initialized")] ∧
    ∀ r : RecOut, ORec.errRec ("Recommender not initialized") ≠ ORec.item r :=
  ⟨rfl, fun _ h => ORec.noConfusion h⟩

/-- Claim C7 (amended to initialized recommenders): when the recommender is
initialized and the call returns a list, every element of that list is a
proper record built from one of the retrieved candidates by the formatting
step, whose `test_type` is the stored comma-joined string split on commas
with each element trimmed. -/
theorem output_record_shape (llmC : Bool) (reply : LLMReply)
    (metas : List Meta) (rest : List (List Meta)) (limit : Nat)
    (out : List ORec)
    (h : get_recommendations true llmC reply (.ok (metas :: rest)) limit =
      some out) :
    ∀ o ∈ out, ∃ p, p ∈ enumFromM 0 metas ∧
      o = ORec.item (formatMeta p.2) ∧
      (formatMeta p.2).test_type = splitStrip p.2.test_type := by
  rw [show get_recommendations true llmC reply (.ok (metas :: rest)) limit =
      (match pipelineCore (requiredTypeNames (analyzeQueryWithLLM llmC reply))
          metas limit with
       | none => none
       | some (out, _) => some (out.map ORec.item)) from rfl] at h
  cases hpc : pipelineCore (requiredTypeNames (analyzeQueryWithLLM llmC reply))
      metas limit with
  | none => rw [hpc] at h; simp at h
  | some pr =>
      obtain ⟨o2, heap⟩ := pr
      rw [hpc] at h
      simp only [Option.some_inj] at h
      subst h
      intro o ho
      obtain ⟨r, hr, rfl⟩ := List.mem_map.mp ho
      obtain ⟨fl, hil, hfin⟩ := pipelineCore_eq_some _ _ _ _ _ hpc
      have hout : o2 = (finalize limit (metas.map initPost) fl).1 :=
        congrArg Prod.fst hfin
      rw [hout] at hr
      rcases mem_finalizeAux_fst fl limit [] [] _ r hr with hmem | ⟨p, hp, rfl⟩
      · simp at hmem
      · have hprov := mem_of_interleave_rankedValues _ _ _ hil p hp
        exact ⟨p, hprov.1, rfl, rfl⟩

/-- Witness for C7's amended claim on a concrete successful run. -/
theorem output_record_shape_witness :
    get_recommendations true true (LLMReply.list ["K"]) (.ok [[mK]]) 10 =
      some [ORec.item (formatMeta mK)] ∧
    ∀ o ∈ [ORec.item (formatMeta mK)], ∃ p, p ∈ enumFromM 0 [mK] ∧
      o = ORec.item (formatMeta p.2) ∧
      (formatMeta p.2).test_type = splitStrip p.2.test_type :=
  ⟨by decide,
    output_record_shape true (LLMReply.list ["K"]) [mK] [] 10
      [ORec.item (formatMeta mK)] (by decide)⟩

/-- Claim C8, counterexample: a retrieved candidate that is emitted has its
`test_type` field overwritten in place (string replaced by the split list),
so after the call its record is not the one that arrived from the broad
search. -/
theorem catalog_item_mutation_cex :
    pipelineCore ["T"] [mShort] 10 =
      some ([formatMeta mShort], [mutatedPost mShort]) ∧
    mutatedPost mShort ≠ initPost mShort ∧
    (mutatedPost mShort).test_type ≠ (initPost mShort).test_type := by
  refine ⟨by decide, by decide, by decide⟩

/-- Claim C8 (amended): the output list itself is fresh, but the emitted
records are mutated in place — after the call, every retrieved record agrees
with its arrival state on url, name, description, duration, adaptive_support
and remote_support, and its `test_type` cell is either still the stored
string (not emitted) or the split-and-trimmed list (in which case its
formatted record is in the output). -/
theorem mutation_only_emitted_test_type (names : List String)
    (metas : List Meta) (limit : Nat) (out : List RecOut)
    (heap : List MetaPost)
    (h : pipelineCore names metas limit = some (out, heap)) :
    ∀ i m, metas.get? i = some m →
      ∃ q, heap.get? i = some q ∧ q.url = m.url ∧ q.name = m.name ∧
        q.description = m.description ∧ q.duration = m.duration ∧
        q.adaptive_support = m.adaptive_support ∧
        q.remote_support = m.remote_support ∧
        (q.test_type = TTVal.str m.test_type ∨
          (q.test_type = TTVal.lst (splitStrip m.test_type) ∧
            formatMeta m ∈ out)) := by
  intro i m hm
  obtain ⟨fl, hil, hfin⟩ := pipelineCore_eq_some _ _ _ _ _ h
  have hout : out = (finalize limit (metas.map initPost) fl).1 :=
    congrArg Prod.fst hfin
  have hheap : heap = (finalize limit (metas.map initPost) fl).2 :=
    congrArg Prod.snd hfin
  rcases finalizeAux_heap fl limit [] [] (metas.map initPost) i with
    hunch | ⟨m', hmem, hcell, hfmt⟩
  · refine ⟨initPost m, ?_, rfl, rfl, rfl, rfl, rfl, rfl, Or.inl rfl⟩
    rw [hheap, finalize, hunch, List.get?_map, hm]
    rfl
  · have hpe := (mem_of_interleave_rankedValues _ _ _ hil (i, m') hmem).1
    have hsome : metas.get? i = some m' := mem_enumFromM_zero metas i m' hpe
    rw [hm] at hsome
    have hmm : m = m' := Option.some_inj.mp hsome
    subst hmm
    refine ⟨mutatedPost m, ?_, rfl, rfl, rfl, rfl, rfl, rfl,
      Or.inr ⟨rfl, ?_⟩⟩
    · rw [hheap, finalize]
      exact hcell
    · rw [hout, finalize]
      exact hfmt

/-- Witness for C8's amended claim on a concrete run. -/
theorem mutation_only_emitted_test_type_witness :
    pipelineCore ["T"] [mShort] 10 =
      some ([formatMeta mShort], [mutatedPost mShort]) ∧
    ∀ i m, [mShort].get? i = some m →
      ∃ q, [mutatedPost mShort].get? i = some q ∧ q.url = m.url ∧
        q.name = m.name ∧ q.description = m.description ∧
        q.duration = m.duration ∧
        q.adaptive_support = m.adaptive_support ∧
        q.remote_support = m.remote_support ∧
        (q.test_type = TTVal.str m.test_type ∨
          (q.test_type = TTVal.lst (splitStrip m.test_type) ∧
            formatMeta m ∈ [formatMeta mShort])) :=
  ⟨by decide,
    mutation_only_emitted_test_type ["T"] [mShort] 10 [formatMeta mShort]
      [mutatedPost mShort] (by decide)⟩

/-- Claim C3: a retrieved candidate lands in the bucket of the first
inferred category (scanning the inferred list in its given order) whose name
its `test_type` string contains and in no other bucket, so no candidate is in
two buckets; a candidate containing none of the inferred category names lands
in no bucket, its record is left untouched by the call, and every record of
the final output originates from a candidate that did match some inferred
category. -/
theorem bucketing_first_match_exclusive (names : List String)
    (metas : List Meta) (limit : Nat) (p : EMeta)
    (hp : p ∈ enumFromM 0 metas) :
    (∀ k, p ∈ rankedBucket names (enumFromM 0 metas) k →
        strIn k p.2.test_type = true ∧
        ∃ pre post, names = pre ++ k :: post ∧
          ∀ n ∈ pre, strIn n p.2.test_type = false) ∧
    (∀ k1 k2, p ∈ rankedBucket names (enumFromM 0 metas) k1 →
        p ∈ rankedBucket names (enumFromM 0 metas) k2 → k1 = k2) ∧
    ((∀ n ∈ names, strIn n p.2.test_type = false) →
        (∀ k, p ∉ rankedBucket names (enumFromM 0 metas) k) ∧
        ∀ out heap, pipelineCore names metas limit = some (out, heap) →
          heap.get? p.1 = some (initPost p.2) ∧
          ∀ r ∈ out, ∃ q, q ∈ enumFromM 0 metas ∧
            (∃ k, metaMatch names q.2 = some k) ∧ r = formatMeta q.2) := by
  obtain ⟨i, m⟩ := p
  refine ⟨?_, ?_, ?_⟩
  · intro k hk
    have hm := ((mem_rankedBucket_iff names _ k (i, m)).mp hk).2
    obtain ⟨pre, post, hsplit, hkk, hpre⟩ := find?_eq_some_split _ names k hm
    exact ⟨hkk, pre, post, hsplit, hpre⟩
  · intro k1 k2 h1 h2
    have e1 := ((mem_rankedBucket_iff names _ k1 (i, m)).mp h1).2
    have e2 := ((mem_rankedBucket_iff names _ k2 (i, m)).mp h2).2
    rw [e1] at e2
    exact Option.some_inj.mp e2
  · intro hnone
    have hmm : metaMatch names m = none := by
      rw [metaMatch, List.find?_eq_none]
      intro n hn
      simp [hnone n hn]
    constructor
    · intro k hk
      have := ((mem_rankedBucket_iff names _ k (i, m)).mp hk).2
      rw [hmm] at this
      exact Option.noConfusion this
    · intro out heap h
      obtain ⟨fl, hil, hfin⟩ := pipelineCore_eq_some _ _ _ _ _ h
      have hout : out = (finalize limit (metas.map initPost) fl).1 :=
        congrArg Prod.fst hfin
      have hheap : heap = (finalize limit (metas.map initPost) fl).2 :=
        congrArg Prod.snd hfin
      constructor
      · rcases finalizeAux_heap fl limit [] [] (metas.map initPost) i with
          hunch | ⟨m', hmem, hcell, hfmt⟩
        · rw [hheap, finalize, hunch, List.get?_map,
            mem_enumFromM_zero metas i m hp]
          rfl
        · obtain ⟨henum, k, hmatch⟩ :=
            mem_of_interleave_rankedValues _ _ _ hil (i, m') hmem
          have heqm : m' = m := enumFromM_zero_inj metas i m' m henum hp
          rw [heqm, hmm] at hmatch
          exact Option.noConfusion hmatch
      · intro r hr
        rw [hout, finalize] at hr
        rcases mem_finalizeAux_fst fl limit [] [] _ r hr with
          habs | ⟨q, hq, rfl⟩
        · simp at habs
        · have hprov := mem_of_interleave_rankedValues _ _ _ hil q hq
          exact ⟨q, hprov.1, hprov.2, rfl⟩

/-- Witness for C3 at a concrete candidate and category list. -/
theorem bucketing_first_match_exclusive_witness :
    (0, mK) ∈ enumFromM 0 [mK] ∧
    ((∀ k, (0, mK) ∈ rankedBucket ["Knowledge & Skills"] (enumFromM 0 [mK]) k →
        strIn k (0, mK).2.test_type = true ∧
        ∃ pre post, ["Knowledge & Skills"] = pre ++ k :: post ∧
          ∀ n ∈ pre, strIn n (0, mK).2.test_type = false) ∧
    (∀ k1 k2, (0, mK) ∈ rankedBucket ["Knowledge & Skills"] (enumFromM 0 [mK]) k1 →
        (0, mK) ∈ rankedBucket ["Knowledge & Skills"] (enumFromM 0 [mK]) k2 →
        k1 = k2) ∧
    ((∀ n ∈ ["Knowledge & Skills"], strIn n (0, mK).2.test_type = false) →
        (∀ k, (0, mK) ∉ rankedBucket ["Knowledge & Skills"] (enumFromM 0 [mK]) k) ∧
        ∀ out heap,
          pipelineCore ["Knowledge & Skills"] [mK] 10 = some (out, heap) →
          heap.get? (0, mK).1 = some (initPost (0, mK).2) ∧
          ∀ r ∈ out, ∃ q, q ∈ enumFromM 0 [mK] ∧
            (∃ k, metaMatch ["Knowledge & Skills"] q.2 = some k) ∧
            r = formatMeta q.2)) :=
  ⟨by decide,
    bucketing_first_match_exclusive ["Knowledge & Skills"] [mK] 10 (0, mK)
      (by decide)⟩

end SHLRec
